import Mathlib

/-!
Shallow embedding of the "checkmate" habit check-in tracker.

The repository has two storage variants of the same application:

* a server variant (`server.js`, duplicated in a SQLite-only file): an Express
  app over a relational store with two tables,
  `users(username PRIMARY KEY, password)` and
  `checkins(id AUTOINCREMENT, username FK -> users ON DELETE CASCADE, date, activity)`;
* a browser-local variant: the same logic against a JSON object
  `username -> (password, checkins : date -> activities)` persisted in
  `localStorage`, where a day's activities value is either an array of
  activity codes or, in legacy data, a single bare code string.

The embedding models:
* the relational store as two Lean lists in insertion (rowid) order;
* each route handler as a pure function from the store (plus request data)
  to a response and a new store;
* the SQL statements of the destructive handlers (delete user, import) as an
  explicit statement list executed either bare (`runPlain`, each statement
  commits on its own) or inside a transaction (`runTxn`, a failure rolls the
  whole sequence back), with an injected failure point standing for a
  transient store error at a given statement;
* JSON objects as association lists in key-insertion order, with lookup and
  update helpers mirroring JS object semantics (first matching key);
* the browser-local store as such an association list whose day values are
  the sum type `DayVal` (legacy bare code, or an array).

Foreign-key enforcement: the schema declares
`FOREIGN KEY (username) REFERENCES users(username) ON DELETE CASCADE`.
PostgreSQL always enforces it, and the better-sqlite3 driver used for the
SQLite path enables foreign-key enforcement by default, so the embedding makes
a check-in insert fail when the referenced user row is absent, and makes user
deletion cascade.
-/

namespace Checkmate

/-- A row of the `checkins` table (the autoincrement id is represented by list
position: rows are kept in insertion order). -/
structure CheckinRow where
  username : String
  date : String
  activity : String
  deriving DecidableEq

/-- A row of the `users` table. -/
structure UserRow where
  username : String
  password : String
  deriving DecidableEq

/-- The relational store: both tables in insertion (rowid) order. -/
structure Store where
  users : List UserRow
  checkins : List CheckinRow
  deriving DecidableEq

/-- `users.username` is a primary key, so reachable stores have pairwise
distinct usernames. -/
def StoreWF (st : Store) : Prop := (st.users.map (fun u => u.username)).Nodup

instance storeWFDecidable (st : Store) : Decidable (StoreWF st) :=
  inferInstanceAs (Decidable ((st.users.map (fun u : UserRow => u.username)).Nodup))

/-- JS object member lookup on an association list: the value at the first
matching key, `none` when the key is absent. -/
def alGet {α : Type} (l : List (String × α)) (k : String) : Option α :=
  match l with
  | [] => none
  | (k', v) :: rest => if k' = k then some v else alGet rest k

/-- Update the value at the first matching key in place; identity when the key
is absent. -/
def alUpdate {α : Type} (l : List (String × α)) (k : String) (f : α → α) :
    List (String × α) :=
  match l with
  | [] => []
  | (k', v) :: rest =>
    if k' = k then (k', f v) :: rest else (k', v) :: alUpdate rest k f

/-- JS object member assignment `o[k] = v`: overwrite in place when the key is
present (keeping its position), append at the end otherwise. -/
def alSet {α : Type} (l : List (String × α)) (k : String) (v : α) :
    List (String × α) :=
  if (alGet l k).isSome then alUpdate l k (fun _ => v) else l ++ [(k, v)]

/-- JS `delete o[k]`: drop the first entry with the key. -/
def alRemove {α : Type} (l : List (String × α)) (k : String) : List (String × α) :=
  match l with
  | [] => []
  | (k', v) :: rest => if k' = k then rest else (k', v) :: alRemove rest k

/-- A persisted day value: either the legacy shape (a single bare activity
code string) or the canonical shape (an array of codes). -/
inductive DayVal where
  | legacy (code : String)
  | arr (codes : List String)
  deriving DecidableEq

/-- One user's entry in a dataset snapshot (the shape of the JSON import body
and of the browser-local store). -/
structure UserIn where
  password : String
  checkins : List (String × DayVal)
  deriving DecidableEq

/-- A dataset snapshot: `username -> (password, date -> day value)`. -/
abbrev Snapshot := List (String × UserIn)

/-- `Array.isArray(activities) ? activities : [activities]`: the legacy
scalar-to-array expansion used by the server import loop. -/
def normDay : DayVal → List String
  | .legacy s => [s]
  | .arr l => l

/-- One user's entry in the object assembled by the `/api/users` and
`/api/export` handlers: day values are always arrays there. -/
structure UserExport where
  password : String
  checkins : List (String × List String)
  deriving DecidableEq

/-- One step of the assembly loop body for a single check-in row:
`if (!checkins[date]) checkins[date] = []; checkins[date].push(activity)`.
In the assembly the value at an existing key is always a non-empty array, so
presence of the key coincides with JS truthiness of the value. -/
def pushDay (cs : List (String × List String)) (d a : String) :
    List (String × List String) :=
  if (alGet cs d).isSome then alUpdate cs d (fun l => l ++ [a]) else cs ++ [(d, [a])]

/-- The assembly loop body for one check-in row:
`if (usersData[checkin.username]) { ... push ... }` — rows whose username has
no entry are skipped. -/
def addRow (acc : List (String × UserExport)) (r : CheckinRow) :
    List (String × UserExport) :=
  if (alGet acc r.username).isSome then
    alUpdate acc r.username
      (fun ud => { ud with checkins := pushDay ud.checkins r.date r.activity })
  else acc

/-- The snapshot assembly shared by `/api/users` and `/api/export`: seed an
entry `(password, empty checkins)` per user row, then fold every check-in row
into it. -/
def buildSnapshot (us : List UserRow) (rows : List CheckinRow) :
    List (String × UserExport) :=
  rows.foldl addRow (us.map (fun u => (u.username, ⟨u.password, []⟩)))

/-- `GET /api/users`: the full users-with-checkins object. -/
def usersHandler (st : Store) : List (String × UserExport) :=
  buildSnapshot st.users st.checkins

/-- `GET /api/export`: textually duplicated assembly, same result shape. -/
def exportHandler (st : Store) : List (String × UserExport) :=
  buildSnapshot st.users st.checkins

/-- HTTP outcome of a mutating handler. -/
inductive Resp where
  | ok
  | invalidInput
  | conflict
  | serverError
  deriving DecidableEq

/-- `SELECT * FROM checkins WHERE username = ? AND date = ? AND activity = ?`
is non-empty. -/
def checkinExists (st : Store) (u d a : String) : Bool :=
  st.checkins.any (fun r => r.username = u && r.date = d && r.activity = a)

/-- `SELECT * FROM users WHERE username = ?` is non-empty. -/
def userExists (st : Store) (u : String) : Bool :=
  st.users.any (fun r => r.username = u)

/-- `POST /api/checkin`: reject a missing field, reject a duplicate
`(username, date, activity)` with 400 Conflict, otherwise insert the row.
The insert itself fails (500, no change) when the username violates the
foreign key, i.e. has no user row. -/
def addCheckinH (st : Store) (u d a : String) : Resp × Store :=
  if u = "" ∨ d = "" ∨ a = "" then (.invalidInput, st)
  else if checkinExists st u d a then (.conflict, st)
  else if userExists st u then (.ok, { st with checkins := st.checkins ++ [⟨u, d, a⟩] })
  else (.serverError, st)

/-- The SQL statements issued by the destructive handlers. -/
inductive Stmt where
  | delCheckinsUser (u : String)
  | delUser (u : String)
  | delAllCheckins
  | delAllUsers
  | insUser (u p : String)
  | insCheckin (u d a : String)
  deriving DecidableEq

/-- Effect of one statement on the store; `none` is a constraint violation
(primary key for a duplicate user insert, foreign key for a check-in insert
without its user row). User deletion cascades to the deleted users' check-in
rows per the schema's `ON DELETE CASCADE`. -/
def applyStmt (st : Store) (s : Stmt) : Option Store :=
  match s with
  | .delCheckinsUser u =>
    some { st with checkins := st.checkins.filter (fun r => !(r.username = u)) }
  | .delUser u =>
    some { users := st.users.filter (fun r => !(r.username = u)),
           checkins :=
             if userExists st u then st.checkins.filter (fun r => !(r.username = u))
             else st.checkins }
  | .delAllCheckins => some { st with checkins := [] }
  | .delAllUsers =>
    some { users := [],
           checkins := st.checkins.filter (fun r => !(userExists st r.username)) }
  | .insUser u p =>
    if userExists st u then none else some { st with users := st.users ++ [⟨u, p⟩] }
  | .insCheckin u d a =>
    if userExists st u then some { st with checkins := st.checkins ++ [⟨u, d, a⟩] }
    else none

/-- Run a statement list to completion, `none` on the first constraint
violation. -/
def runStmts : List Stmt → Store → Option Store
  | [], st => some st
  | s :: rest, st =>
    match applyStmt st s with
    | none => none
    | some st' => runStmts rest st'

/-- Run a statement list with no surrounding transaction: each completed
statement commits on its own. `failAt = some i` injects a transient store
failure at the i-th remaining statement (which then has no effect, while the
statements already executed stay committed); a constraint violation fails the
same way. Returns whether the whole list completed, and the store. -/
def runPlain : List Stmt → Option Nat → Store → Bool × Store
  | [], _, st => (true, st)
  | s :: rest, failAt, st =>
    if failAt = some 0 then (false, st)
    else
      match applyStmt st s with
      | none => (false, st)
      | some st' => runPlain rest (failAt.map (fun n => n - 1)) st'

/-- Run a statement list inside `BEGIN ... COMMIT` with `ROLLBACK` on error:
on any failure the store reverts to its state at `BEGIN`. -/
def runTxn (stmts : List Stmt) (failAt : Option Nat) (st : Store) : Bool × Store :=
  match runPlain stmts failAt st with
  | (true, st') => (true, st')
  | (false, _) => (false, st)

/-- `DELETE /api/user/:username`: two bare statements, not wrapped in any
transaction — first delete the user's check-ins, then the user row. -/
def deleteUserH (st : Store) (u : String) (failAt : Option Nat) : Bool × Store :=
  runPlain [.delCheckinsUser u, .delUser u] failAt st

/-- The insert statements for one snapshot entry: the user row first, then one
check-in row per activity per day, with a legacy scalar day value expanded by
`normDay`. -/
def userStmts (n : String) (ud : UserIn) : List Stmt :=
  .insUser n ud.password ::
    ud.checkins.flatMap (fun q => (normDay q.2).map (fun a => .insCheckin n q.1 a))

/-- The statement list of `POST /api/import`: clear both tables, then insert
every account and check-in of the snapshot. -/
def importStmts (snap : Snapshot) : List Stmt :=
  .delAllCheckins :: .delAllUsers :: snap.flatMap (fun p => userStmts p.1 p.2)

/-- `POST /api/import`: the import statement list inside one transaction. -/
def runImportH (snap : Snapshot) (failAt : Option Nat) (st : Store) : Bool × Store :=
  runTxn (importStmts snap) failAt st

/-- The user rows a fully applied import leaves in the store. -/
def usersOfSnap (snap : Snapshot) : List UserRow :=
  snap.map (fun p => ⟨p.1, p.2.password⟩)

/-- The check-in rows a fully applied import leaves in the store. -/
def rowsOfSnap (snap : Snapshot) : List CheckinRow :=
  snap.flatMap (fun p =>
    p.2.checkins.flatMap (fun q => (normDay q.2).map (fun a => ⟨p.1, q.1, a⟩)))

/-- The store a fully applied import of `snap` produces. -/
def storeOfSnapshot (snap : Snapshot) : Store :=
  ⟨usersOfSnap snap, rowsOfSnap snap⟩

/-- The exported object, read back as an import body: every exported day value
is an array. -/
def toSnapshot (e : List (String × UserExport)) : Snapshot :=
  e.map (fun p => (p.1, ⟨p.2.password, p.2.checkins.map (fun q => (q.1, DayVal.arr q.2))⟩))

/-- A snapshot with every legacy scalar day value expanded to the singleton
array (the canonical collection form). -/
def canonSnap (snap : Snapshot) : Snapshot :=
  snap.map (fun p =>
    (p.1, ⟨p.2.password, p.2.checkins.map (fun q => (q.1, DayVal.arr (normDay q.2)))⟩))

/-- Browser-local `getTodayCheckin`: the current user's value for the day,
with a legacy bare code normalized to a one-element array. -/
def getTodayCheckin (users : Snapshot) (currentUser today : String) : List String :=
  match alGet users currentUser with
  | none => []
  | some ud =>
    match alGet ud.checkins today with
    | some (.legacy s) => [s]
    | some (.arr l) => l
    | none => []

/-- Browser-local `toggleCheckin`: read the day's value (normalizing a legacy
bare code), remove the activity if present (splice at its first index) or
append it, then delete the day key if the result is empty, else store the
array; finally write the user entry back. -/
def toggleCheckin (users : Snapshot) (currentUser today activity : String) : Snapshot :=
  match alGet users currentUser with
  | none => users
  | some ud =>
    let cur : List String :=
      match alGet ud.checkins today with
      | some (.legacy s) => [s]
      | some (.arr l) => l
      | none => []
    let cur' := if activity ∈ cur then cur.erase activity else cur ++ [activity]
    let newCheckins :=
      if cur' = [] then alRemove ud.checkins today
      else alSet ud.checkins today (.arr cur')
    alSet users currentUser { ud with checkins := newCheckins }

/-- Primary collation key of the `localeCompare` model: the code points of the
string lowercased character by character. -/
def primaryKey (s : String) : List Nat :=
  s.data.map (fun c => c.toLower.toNat)

/-- Case tiebreak key of the `localeCompare` model: 0 for a lowercase
position, 1 for an uppercase one (the root locale orders lowercase first). -/
def caseKey (s : String) : List Nat :=
  s.data.map (fun c => if c.isUpper then 1 else 0)

/-- Modelled from the JS builtin `String.prototype.localeCompare` under the
default (root) locale, restricted to the scripts the app uses: compare
case-insensitively first over the whole string, and break full primary ties by
case, lowercase before uppercase. So for example "a" sorts before "B". -/
def localeLe (s t : String) : Prop :=
  toLex (primaryKey s, caseKey s) ≤ toLex (primaryKey t, caseKey t)

instance localeLeDecidable : DecidableRel localeLe := fun s t =>
  inferInstanceAs (Decidable (toLex (primaryKey s, caseKey s) ≤ toLex (primaryKey t, caseKey t)))

/-- The comparator `(a, b) => a.username.localeCompare(b.username)` used to
sort the feed, as the ordering it sorts by. -/
def feedOrd (a b : String × List String) : Prop := localeLe a.1 b.1

instance feedOrdDecidable : DecidableRel feedOrd := fun a b =>
  inferInstanceAs (Decidable (localeLe a.1 b.1))

/-- The feed's inclusion test and normalization for one day value:
`if (userData.checkins[today])` (a JS truthiness test, so a legacy empty
string is skipped), then string-to-array migration, then
`Array.isArray(activities) && activities.length > 0`. -/
def feedEntry (v : DayVal) : Option (List String) :=
  match v with
  | .legacy s => if s = "" then none else some [s]
  | .arr l => if l = [] then none else some l

/-- Browser-local `updateTodayActivity` data: every user whose value for the
day passes `feedEntry`, paired with the normalized activities, sorted with the
`localeCompare` comparator (a stable sort, as JS `Array.prototype.sort`). -/
def todayFeed (users : Snapshot) (today : String) : List (String × List String) :=
  List.insertionSort feedOrd
    (users.filterMap (fun p =>
      ((alGet p.2.checkins today).bind feedEntry).map (fun acts => (p.1, acts))))

/-- Code-point comparison of strings, for stating the claimed
"case-sensitive lexical (code-point)" ordering. -/
def cpLe (s t : String) : Prop :=
  s.data.map Char.toNat ≤ t.data.map Char.toNat

instance cpLeDecidable : DecidableRel cpLe := fun s t =>
  inferInstanceAs (Decidable (s.data.map Char.toNat ≤ t.data.map Char.toNat))

/-- Browser-local `exportData`: `JSON.stringify(JSON.parse(stored))` — the
stored object is emitted verbatim, with no normalization pass. -/
def exportDataLocal (users : Snapshot) : Snapshot := users

/-- Browser-local `importData`: `localStorage.setItem('users',
JSON.stringify(importedData))` — the store becomes the imported snapshot
verbatim, with no normalization pass. -/
def importDataLocal (imported : Snapshot) : Snapshot := imported

/-- Whether some user has a day entry whose value is the empty array. -/
def hasEmptyDay (users : Snapshot) : Bool :=
  users.any (fun p => p.2.checkins.any (fun q => q.2 == DayVal.arr []))

/-- No check-in row is orphaned: every row's username has a user row. -/
def noOrphans (st : Store) : Bool :=
  st.checkins.all (fun r => userExists st r.username)

/-- The store `DELETE /api/user/:username` is meant to reach: both the user
row and all of the user's check-in rows removed. -/
def deletedState (st : Store) (u : String) : Store :=
  ⟨st.users.filter (fun r => !(r.username = u)),
   st.checkins.filter (fun r => !(r.username = u))⟩

/-- Fold a row list into a per-day map with `pushDay` (the inner loop of the
snapshot assembly, restricted to one user's rows). -/
def foldPush (cs : List (String × List String)) (rows : List CheckinRow) :
    List (String × List String) :=
  rows.foldl (fun m r => pushDay m r.date r.activity) cs

/-- Whether a statement is one of the two insert forms. -/
def isInsert : Stmt → Bool
  | .insUser _ _ => true
  | .insCheckin _ _ _ => true
  | _ => false

/-- The user row inserted by a statement, if any. -/
def stmtUser : Stmt → Option UserRow
  | .insUser u p => some ⟨u, p⟩
  | _ => none

/-- The check-in row inserted by a statement, if any. -/
def stmtRow : Stmt → Option CheckinRow
  | .insCheckin u d a => some ⟨u, d, a⟩
  | _ => none

/-- The check-in rows of one user of a canonical (all-arrays) snapshot, in the
insertion order of the import loop: by day, then by array position. -/
def userBlock (n : String) (cs : List (String × List String)) : List CheckinRow :=
  cs.flatMap (fun q => q.2.map (fun a => ⟨n, q.1, a⟩))

/-- A canonical per-day map: day keys pairwise distinct, every array
non-empty. The assembly only ever produces such maps. -/
def dayCanon (cs : List (String × List String)) : Prop :=
  (cs.map Prod.fst).Nodup ∧ ∀ p ∈ cs, p.2 ≠ []

/-- Concrete store: one account with one check-in row. -/
def exStore : Store := ⟨[⟨"alice", "pw"⟩], [⟨"alice", "2024-03-01", "paper"⟩]⟩

/-- Concrete store: one account, no check-ins. -/
def exStore0 : Store := ⟨[⟨"alice", "pw"⟩], []⟩

/-- Concrete snapshot with a legacy scalar day value. -/
def exSnap : Snapshot := [("bob", ⟨"h", [("2024-03-02", DayVal.legacy "fitness")]⟩)]

/-- Concrete snapshot whose one day entry is an empty array. -/
def emptyDaySnap : Snapshot := [("u", ⟨"p", [("2024-03-01", DayVal.arr [])]⟩)]

/-- Concrete browser-local store with a legacy scalar day value. -/
def legacySnap : Snapshot := [("u", ⟨"p", [("2024-03-01", DayVal.legacy "fitness")]⟩)]

/-- Concrete browser-local store with two users, both checked in on the same
date, whose usernames order differently under `localeCompare` and under
code-point comparison. -/
def feedUsers : Snapshot :=
  [("B", ⟨"p", [("2024-03-01", DayVal.arr ["paper"])]⟩),
   ("a", ⟨"q", [("2024-03-01", DayVal.arr ["fitness"])]⟩)]

/-- Concrete browser-local store: one user, one day, exactly one activity. -/
def oneDaySnap : Snapshot := [("u", ⟨"p", [("2024-03-01", DayVal.arr ["paper"])]⟩)]

/-- Concrete store with two accounts and interleaved check-in rows (so that
re-importing its own export regroups the rows without changing the export). -/
def exStoreC : Store :=
  ⟨[⟨"bob", "p2"⟩, ⟨"alice", "p1"⟩],
   [⟨"alice", "2024-03-01", "paper"⟩, ⟨"bob", "2024-03-01", "quant"⟩,
    ⟨"alice", "2024-03-02", "fitness"⟩]⟩

end Checkmate

namespace Checkmate

/-! ### Association-list lemmas -/

@[simp]
theorem alGet_nil {α : Type} (k : String) : alGet ([] : List (String × α)) k = none := rfl

@[simp]
theorem alGet_cons {α : Type} (k' k : String) (v : α) (l : List (String × α)) :
    alGet ((k', v) :: l) k = if k' = k then some v else alGet l k := rfl

@[simp]
theorem alUpdate_nil {α : Type} (k : String) (f : α → α) :
    alUpdate ([] : List (String × α)) k f = [] := rfl

@[simp]
theorem alUpdate_cons {α : Type} (k' k : String) (v : α) (l : List (String × α)) (f : α → α) :
    alUpdate ((k', v) :: l) k f =
      if k' = k then (k', f v) :: l else (k', v) :: alUpdate l k f := rfl

@[simp]
theorem alRemove_nil {α : Type} (k : String) : alRemove ([] : List (String × α)) k = [] := rfl

@[simp]
theorem alRemove_cons {α : Type} (k' k : String) (v : α) (l : List (String × α)) :
    alRemove ((k', v) :: l) k = if k' = k then l else (k', v) :: alRemove l k := rfl

theorem alGet_isSome_iff {α : Type} (l : List (String × α)) (k : String) :
    (alGet l k).isSome = true ↔ k ∈ l.map Prod.fst := by
  induction l with
  | nil => simp [alGet]
  | cons p rest ih =>
    obtain ⟨k', v⟩ := p
    by_cases h : k' = k
    · subst h; simp [alGet]
    · simp only [alGet, if_neg h, List.map_cons, List.mem_cons, ih]
      constructor
      · exact fun hm => Or.inr hm
      · rintro (rfl | hm)
        · exact absurd rfl h
        · exact hm

theorem alGet_eq_none_iff {α : Type} (l : List (String × α)) (k : String) :
    alGet l k = none ↔ k ∉ l.map Prod.fst := by
  rw [← alGet_isSome_iff]
  cases alGet l k <;> simp

theorem alGet_mem {α : Type} {l : List (String × α)} {k : String} {v : α}
    (h : alGet l k = some v) : (k, v) ∈ l := by
  induction l with
  | nil => simp [alGet] at h
  | cons p rest ih =>
    obtain ⟨k', v'⟩ := p
    by_cases hk : k' = k
    · subst hk
      rw [alGet_cons, if_pos rfl] at h
      injection h with h
      rw [← h]
      exact List.mem_cons_self _ _
    · rw [alGet_cons, if_neg hk] at h
      exact List.mem_cons_of_mem _ (ih h)

theorem alGet_append_right {α : Type} {l₁ : List (String × α)} (l₂ : List (String × α))
    {k : String} (h : alGet l₁ k = none) : alGet (l₁ ++ l₂) k = alGet l₂ k := by
  induction l₁ with
  | nil => simp
  | cons p rest ih =>
    obtain ⟨k', v⟩ := p
    by_cases hk : k' = k
    · simp [alGet, hk] at h
    · simp only [alGet, if_neg hk] at h
      simpa [alGet, if_neg hk] using ih h

theorem alGet_alUpdate_self {α : Type} (l : List (String × α)) (k : String) (f : α → α) :
    alGet (alUpdate l k f) k = (alGet l k).map f := by
  induction l with
  | nil => simp [alGet, alUpdate]
  | cons p rest ih =>
    obtain ⟨k', v⟩ := p
    by_cases hk : k' = k
    · simp [alGet, alUpdate, hk]
    · simp [alGet, alUpdate, hk, ih]

theorem keys_alUpdate {α : Type} (l : List (String × α)) (k : String) (f : α → α) :
    (alUpdate l k f).map Prod.fst = l.map Prod.fst := by
  induction l with
  | nil => simp [alUpdate]
  | cons p rest ih =>
    obtain ⟨k', v⟩ := p
    by_cases hk : k' = k
    · simp [alUpdate, hk]
    · simp [alUpdate, hk, ih]

theorem alUpdate_of_get_none {α : Type} {l : List (String × α)} {k : String}
    (f : α → α) (h : alGet l k = none) : alUpdate l k f = l := by
  induction l with
  | nil => simp [alUpdate]
  | cons p rest ih =>
    obtain ⟨k', v⟩ := p
    by_cases hk : k' = k
    · simp [alGet, hk] at h
    · simp only [alGet, if_neg hk] at h
      simp [alUpdate, hk, ih h]

theorem alUpdate_append_right {α : Type} {l₁ : List (String × α)} (l₂ : List (String × α))
    {k : String} (f : α → α) (h : alGet l₁ k = none) :
    alUpdate (l₁ ++ l₂) k f = l₁ ++ alUpdate l₂ k f := by
  induction l₁ with
  | nil => simp
  | cons p rest ih =>
    obtain ⟨k', v⟩ := p
    by_cases hk : k' = k
    · simp [alGet, hk] at h
    · simp only [alGet, if_neg hk] at h
      simp [alUpdate, hk, ih h]

theorem alGet_alSet_self {α : Type} (l : List (String × α)) (k : String) (v : α) :
    alGet (alSet l k v) k = some v := by
  unfold alSet
  by_cases h : (alGet l k).isSome = true
  · rw [if_pos h, alGet_alUpdate_self]
    obtain ⟨w, hw⟩ := Option.isSome_iff_exists.mp h
    simp [hw]
  · have hn : alGet l k = none := by
      cases hg : alGet l k
      · rfl
      · exact absurd (by simp [hg]) h
    rw [if_neg h, alGet_append_right _ hn]
    simp [alGet]

theorem mem_alUpdate {α : Type} {l : List (String × α)} {k : String} {f : α → α}
    {p : String × α} (h : p ∈ alUpdate l k f) :
    p ∈ l ∨ ∃ v, (k, v) ∈ l ∧ p = (k, f v) := by
  induction l with
  | nil => simp [alUpdate] at h
  | cons q rest ih =>
    obtain ⟨k', v'⟩ := q
    by_cases hk : k' = k
    · subst hk
      rw [alUpdate_cons, if_pos rfl] at h
      rcases List.mem_cons.mp h with h | h
      · exact Or.inr ⟨v', List.mem_cons_self _ _, h⟩
      · exact Or.inl (List.mem_cons_of_mem _ h)
    · rw [alUpdate_cons, if_neg hk] at h
      rcases List.mem_cons.mp h with h | h
      · rw [h]; exact Or.inl (List.mem_cons_self _ _)
      · rcases ih h with h' | ⟨v, hv, hp⟩
        · exact Or.inl (List.mem_cons_of_mem _ h')
        · exact Or.inr ⟨v, List.mem_cons_of_mem _ hv, hp⟩

theorem mem_alSet {α : Type} {l : List (String × α)} {k : String} {v : α}
    {p : String × α} (h : p ∈ alSet l k v) : p ∈ l ∨ p = (k, v) := by
  unfold alSet at h
  by_cases hs : (alGet l k).isSome = true
  · rw [if_pos hs] at h
    rcases mem_alUpdate h with h' | ⟨w, _, rfl⟩
    · exact Or.inl h'
    · exact Or.inr rfl
  · rw [if_neg hs] at h
    rcases List.mem_append.mp h with h' | h'
    · exact Or.inl h'
    · simp only [List.mem_singleton] at h'
      exact Or.inr h'

theorem mem_alRemove {α : Type} {l : List (String × α)} {k : String}
    {p : String × α} (h : p ∈ alRemove l k) : p ∈ l := by
  induction l with
  | nil => simp [alRemove] at h
  | cons q rest ih =>
    obtain ⟨k', v'⟩ := q
    by_cases hk : k' = k
    · subst hk
      simp only [alRemove, if_pos rfl] at h
      exact List.mem_cons_of_mem _ h
    · simp only [alRemove, if_neg hk, List.mem_cons] at h
      rcases h with rfl | h
      · exact List.mem_cons_self _ _
      · exact List.mem_cons_of_mem _ (ih h)

theorem alGet_alRemove_self {α : Type} {l : List (String × α)} {k : String}
    (h : (l.map Prod.fst).Nodup) : alGet (alRemove l k) k = none := by
  induction l with
  | nil => simp [alRemove, alGet]
  | cons q rest ih =>
    obtain ⟨k', v'⟩ := q
    simp only [List.map_cons, List.nodup_cons] at h
    by_cases hk : k' = k
    · subst hk
      simp only [alRemove, if_pos rfl]
      exact (alGet_eq_none_iff _ _).mpr h.1
    · simp only [alRemove, if_neg hk, alGet, if_neg hk]
      exact ih h.2

end Checkmate

namespace Checkmate

/-! ### Lemmas about maps with explicit keys -/

theorem keys_map_keyed {α β : Type} (κ : β → String) (v : β → α) (us : List β) :
    (us.map (fun u => (κ u, v u))).map Prod.fst = us.map κ := by
  rw [List.map_map]; rfl

theorem alGet_map_isSome {α β : Type} (κ : β → String) (v : β → α) (us : List β) (k : String) :
    (alGet (us.map (fun u => (κ u, v u))) k).isSome = true ↔ k ∈ us.map κ := by
  rw [alGet_isSome_iff, keys_map_keyed]

theorem alGet_map_of_mem {α β : Type} (κ : β → String) (v : β → α) {us : List β} {b : β}
    (hnd : (us.map κ).Nodup) (hb : b ∈ us) :
    alGet (us.map (fun u => (κ u, v u))) (κ b) = some (v b) := by
  induction us with
  | nil => simp at hb
  | cons c rest ih =>
    simp only [List.map_cons, List.nodup_cons] at hnd
    rcases List.mem_cons.mp hb with rfl | hb'
    · simp
    · have hne : κ c ≠ κ b := fun he => hnd.1 (by rw [he]; exact List.mem_map_of_mem κ hb')
      simp only [List.map_cons, alGet_cons, if_neg hne]
      exact ih hnd.2 hb'

theorem alUpdate_map {α β : Type} (κ : β → String) (v : β → α) (us : List β) (k : String)
    (f : α → α) (hnd : (us.map κ).Nodup) :
    alUpdate (us.map (fun u => (κ u, v u))) k f =
      us.map (fun u => (κ u, if κ u = k then f (v u) else v u)) := by
  induction us with
  | nil => simp
  | cons c rest ih =>
    simp only [List.map_cons, List.nodup_cons] at hnd
    by_cases hc : κ c = k
    · rw [List.map_cons, alUpdate_cons, if_pos hc, List.map_cons, if_pos hc]
      congr 1
      apply List.map_congr_left
      intro u hu
      have hne : ¬ (κ u = k) := fun he => hnd.1 (by rw [hc, ← he]; exact List.mem_map_of_mem κ hu)
      rw [if_neg hne]
    · rw [List.map_cons, alUpdate_cons, if_neg hc, List.map_cons, if_neg hc, ih hnd.2]

/-! ### Snapshot assembly lemmas -/

theorem keys_foldl_addRow (rows : List CheckinRow) (acc : List (String × UserExport)) :
    (rows.foldl addRow acc).map Prod.fst = acc.map Prod.fst := by
  induction rows generalizing acc with
  | nil => rfl
  | cons r rest ih =>
    rw [List.foldl_cons, ih]
    unfold addRow
    by_cases h : (alGet acc r.username).isSome = true
    · rw [if_pos h, keys_alUpdate]
    · rw [if_neg h]

theorem keys_buildSnapshot (us : List UserRow) (rows : List CheckinRow) :
    (buildSnapshot us rows).map Prod.fst = us.map (fun u => u.username) := by
  rw [buildSnapshot, keys_foldl_addRow]
  exact keys_map_keyed _ _ _

theorem foldl_addRow_map (rows : List CheckinRow) (us : List UserRow)
    (g : UserRow → List (String × List String))
    (hnd : (us.map (fun u => u.username)).Nodup) :
    rows.foldl addRow (us.map (fun u => (u.username, ⟨u.password, g u⟩))) =
      us.map (fun u =>
        (u.username,
          ⟨u.password, foldPush (g u) (rows.filter (fun r => r.username = u.username))⟩)) := by
  induction rows generalizing g with
  | nil => simp [foldPush]
  | cons r rest ih =>
    rw [List.foldl_cons]
    by_cases hmem : r.username ∈ us.map (fun u => u.username)
    · have hsome :
          (alGet (us.map (fun u => (u.username, (⟨u.password, g u⟩ : UserExport)))) r.username).isSome
            = true :=
        (alGet_map_isSome _ _ _ _).mpr hmem
      rw [show addRow (us.map (fun u => (u.username, (⟨u.password, g u⟩ : UserExport)))) r =
            alUpdate (us.map (fun u => (u.username, (⟨u.password, g u⟩ : UserExport)))) r.username
              (fun ud => { ud with checkins := pushDay ud.checkins r.date r.activity }) from by
          unfold addRow; rw [if_pos hsome]]
      rw [alUpdate_map _ _ _ _ _ hnd]
      have hstep :
          us.map (fun u =>
            (u.username,
              if u.username = r.username then
                ({ password := u.password,
                   checkins := pushDay (g u) r.date r.activity } : UserExport)
              else ⟨u.password, g u⟩)) =
          us.map (fun u =>
            (u.username,
              (⟨u.password,
                if u.username = r.username then pushDay (g u) r.date r.activity
                else g u⟩ : UserExport))) := by
        apply List.map_congr_left
        intro u _
        by_cases hc : u.username = r.username <;> simp [hc]
      rw [hstep,
        ih (fun u => if u.username = r.username then pushDay (g u) r.date r.activity else g u)]
      apply List.map_congr_left
      intro u _
      by_cases hc : u.username = r.username
      · rw [if_pos hc, List.filter_cons_of_pos (by simp [hc])]
        rfl
      · rw [if_neg hc,
          List.filter_cons_of_neg (by simp only [decide_eq_true_eq]; exact fun h => hc h.symm)]
    · have hnone :
          ¬ ((alGet (us.map (fun u => (u.username, (⟨u.password, g u⟩ : UserExport)))) r.username).isSome
            = true) :=
        fun h => hmem ((alGet_map_isSome _ _ _ _).mp h)
      rw [show addRow (us.map (fun u => (u.username, (⟨u.password, g u⟩ : UserExport)))) r =
            us.map (fun u => (u.username, (⟨u.password, g u⟩ : UserExport))) from by
          unfold addRow; rw [if_neg hnone]]
      rw [ih g]
      apply List.map_congr_left
      intro u hu
      have hne : ¬ (r.username = u.username) :=
        fun he => hmem (by rw [he]; exact List.mem_map_of_mem _ hu)
      rw [List.filter_cons_of_neg (by simp only [decide_eq_true_eq]; exact hne)]

theorem buildSnapshot_eq_map (us : List UserRow) (rows : List CheckinRow)
    (hnd : (us.map (fun u => u.username)).Nodup) :
    buildSnapshot us rows =
      us.map (fun u =>
        (u.username,
          ⟨u.password, foldPush [] (rows.filter (fun r => r.username = u.username))⟩)) :=
  foldl_addRow_map rows us (fun _ => []) hnd

end Checkmate

namespace Checkmate

/-! ### pushDay lemmas -/

theorem dayCanon_nil : dayCanon [] := ⟨List.nodup_nil, by intro p hp; simp at hp⟩

theorem dayCanon_pushDay (d a : String) {cs : List (String × List String)}
    (h : dayCanon cs) : dayCanon (pushDay cs d a) := by
  unfold pushDay
  by_cases hs : (alGet cs d).isSome = true
  · rw [if_pos hs]
    refine ⟨by rw [keys_alUpdate]; exact h.1, ?_⟩
    intro p hp
    rcases mem_alUpdate hp with hp' | ⟨v, _, hpv⟩
    · exact h.2 p hp'
    · rw [hpv]; simp
  · rw [if_neg hs]
    have hd : d ∉ cs.map Prod.fst := by
      rw [← alGet_isSome_iff]; exact hs
    constructor
    · rw [List.map_append]
      refine List.Nodup.append h.1 (by simp) ?_
      intro x hx hx'
      simp only [List.map_cons, List.map_nil, List.mem_singleton] at hx'
      rw [hx'] at hx
      exact hd hx
    · intro p hp
      rcases List.mem_append.mp hp with hp' | hp'
      · exact h.2 p hp'
      · simp only [List.mem_singleton] at hp'
        rw [hp']; simp

theorem alGet_pushDay_self (cs : List (String × List String)) (d a : String) :
    ∃ l, alGet (pushDay cs d a) d = some l ∧ a ∈ l := by
  unfold pushDay
  by_cases hs : (alGet cs d).isSome = true
  · rw [if_pos hs]
    obtain ⟨w, hw⟩ := Option.isSome_iff_exists.mp hs
    refine ⟨w ++ [a], ?_, by simp⟩
    rw [alGet_alUpdate_self, hw]
    rfl
  · rw [if_neg hs]
    have hn : alGet cs d = none := by
      cases hg : alGet cs d
      · rfl
      · exact absurd (by simp [hg]) hs
    refine ⟨[a], ?_, by simp⟩
    rw [alGet_append_right _ hn]
    simp

theorem foldPush_concat (cs : List (String × List String)) (rows : List CheckinRow)
    (r : CheckinRow) :
    foldPush cs (rows ++ [r]) = pushDay (foldPush cs rows) r.date r.activity := by
  unfold foldPush
  rw [List.foldl_concat]

/-! ### Statement execution lemmas -/

theorem runPlain_true {stmts : List Stmt} {failAt : Option Nat} {st st' : Store}
    (h : runPlain stmts failAt st = (true, st')) : runStmts stmts st = some st' := by
  induction stmts generalizing failAt st with
  | nil =>
    simp only [runPlain, Prod.mk.injEq] at h
    rw [runStmts, h.2]
  | cons s rest ih =>
    rw [runPlain] at h
    split at h
    · simp at h
    · split at h
      · simp at h
      · rename_i st1 happly
        rw [runStmts]
        simp only [happly]
        exact ih h

end Checkmate

namespace Checkmate

theorem filterMap_flatMap_helper {α β γ : Type} (l : List α) (g : α → List β)
    (f : β → Option γ) :
    (l.flatMap g).filterMap f = l.flatMap (fun x => (g x).filterMap f) := by
  induction l with
  | nil => simp
  | cons x xs ih => simp [List.flatMap_cons, List.filterMap_append, ih]

theorem flatMap_single_helper {α β : Type} (l : List α) (f : α → β) :
    (l.flatMap fun x => [f x]) = l.map f := by
  induction l with
  | nil => simp
  | cons x xs ih => simp [List.flatMap_cons, ih]

theorem flatMap_congr_helper {α β : Type} {l : List α} {f g : α → List β}
    (h : ∀ a ∈ l, f a = g a) : l.flatMap f = l.flatMap g := by
  induction l with
  | nil => rfl
  | cons x xs ih =>
    rw [List.flatMap_cons, List.flatMap_cons, h x (List.mem_cons_self _ _),
      ih (fun a ha => h a (List.mem_cons_of_mem _ ha))]

theorem runStmts_inserts {stmts : List Stmt} {st st' : Store}
    (hins : ∀ s ∈ stmts, isInsert s = true)
    (h : runStmts stmts st = some st') :
    st' = ⟨st.users ++ stmts.filterMap stmtUser, st.checkins ++ stmts.filterMap stmtRow⟩ := by
  induction stmts generalizing st with
  | nil =>
    rw [runStmts] at h
    injection h with h
    rw [← h]
    simp
  | cons s rest ih =>
    rw [runStmts] at h
    split at h
    · simp at h
    · rename_i st1 heq
      have hrest : ∀ t ∈ rest, isInsert t = true :=
        fun t ht => hins t (List.mem_cons_of_mem s ht)
      have hs := hins s (List.mem_cons_self s rest)
      cases s with
      | insUser u p =>
        simp only [applyStmt] at heq
        split at heq
        · simp at heq
        · injection heq with heq
          rw [ih hrest h, ← heq]
          simp [stmtUser, stmtRow, List.filterMap_cons, List.append_assoc]
      | insCheckin u d a =>
        simp only [applyStmt] at heq
        split at heq
        · injection heq with heq
          rw [ih hrest h, ← heq]
          simp [stmtUser, stmtRow, List.filterMap_cons, List.append_assoc]
        · simp at heq
      | delCheckinsUser u => simp [isInsert] at hs
      | delUser u => simp [isInsert] at hs
      | delAllCheckins => simp [isInsert] at hs
      | delAllUsers => simp [isInsert] at hs

theorem isInsert_userStmts (n : String) (ud : UserIn) :
    ∀ s ∈ userStmts n ud, isInsert s = true := by
  intro s hs
  rw [userStmts] at hs
  rcases List.mem_cons.mp hs with rfl | hs
  · rfl
  · obtain ⟨q, _, hq⟩ := List.mem_flatMap.mp hs
    obtain ⟨a, _, rfl⟩ := List.mem_map.mp hq
    rfl

theorem isInsert_body (snap : Snapshot) :
    ∀ s ∈ snap.flatMap (fun p => userStmts p.1 p.2), isInsert s = true := by
  intro s hs
  obtain ⟨p, _, hp⟩ := List.mem_flatMap.mp hs
  exact isInsert_userStmts p.1 p.2 s hp

theorem filterMap_stmtUser_userStmts (n : String) (ud : UserIn) :
    (userStmts n ud).filterMap stmtUser = [⟨n, ud.password⟩] := by
  have htail :
      (ud.checkins.flatMap
        (fun q => (normDay q.2).map (fun a => Stmt.insCheckin n q.1 a))).filterMap stmtUser
        = [] := by
    rw [List.filterMap_eq_nil_iff]
    intro s hs
    obtain ⟨q, _, hq⟩ := List.mem_flatMap.mp hs
    obtain ⟨a, _, rfl⟩ := List.mem_map.mp hq
    rfl
  rw [userStmts, List.filterMap_cons]
  simp [stmtUser, htail]

theorem filterMap_some_helper {α β : Type} (l : List α) (f : α → β) :
    l.filterMap (fun a => some (f a)) = l.map f := by
  induction l with
  | nil => rfl
  | cons x xs ih => simp [List.filterMap_cons, ih]

theorem filterMap_stmtRow_userStmts (n : String) (ud : UserIn) :
    (userStmts n ud).filterMap stmtRow =
      ud.checkins.flatMap (fun q => (normDay q.2).map (fun a => ⟨n, q.1, a⟩)) := by
  have hhead : stmtRow (Stmt.insUser n ud.password) = none := rfl
  rw [userStmts]
  simp only [List.filterMap_cons, hhead]
  rw [filterMap_flatMap_helper]
  congr 1
  funext q
  rw [List.filterMap_map]
  exact filterMap_some_helper _ _

theorem body_users (snap : Snapshot) :
    (snap.flatMap (fun p => userStmts p.1 p.2)).filterMap stmtUser = usersOfSnap snap := by
  rw [filterMap_flatMap_helper, usersOfSnap]
  simp only [filterMap_stmtUser_userStmts]
  exact flatMap_single_helper _ _

theorem body_rows (snap : Snapshot) :
    (snap.flatMap (fun p => userStmts p.1 p.2)).filterMap stmtRow = rowsOfSnap snap := by
  rw [filterMap_flatMap_helper, rowsOfSnap]
  simp only [filterMap_stmtRow_userStmts]

theorem runImportH_eq_true {snap : Snapshot} {failAt : Option Nat} {st st' : Store}
    (h : runImportH snap failAt st = (true, st')) : st' = storeOfSnapshot snap := by
  rw [runImportH, runTxn] at h
  split at h
  · rename_i st1 heq
    injection h with h1 h2
    subst h2
    have hrun := runPlain_true heq
    rw [importStmts, runStmts] at hrun
    simp only [applyStmt] at hrun
    rw [runStmts] at hrun
    simp only [applyStmt, List.filter_nil] at hrun
    have hfin := runStmts_inserts (isInsert_body snap) hrun
    rw [hfin, storeOfSnapshot]
    simp [body_users, body_rows]
  · simp at h

theorem runImportH_eq_false {snap : Snapshot} {failAt : Option Nat} {st st' : Store}
    (h : runImportH snap failAt st = (false, st')) : st' = st := by
  rw [runImportH, runTxn] at h
  split at h
  · simp at h
  · injection h with h1 h2
    rw [h2]

end Checkmate

namespace Checkmate

/-! ### Canonicity of the assembled snapshot -/

theorem buildSnapshot_canon (us : List UserRow) (rows : List CheckinRow) :
    ∀ p ∈ buildSnapshot us rows, dayCanon p.2.checkins := by
  have main : ∀ (rs : List CheckinRow) (acc : List (String × UserExport)),
      (∀ p ∈ acc, dayCanon p.2.checkins) →
      ∀ p ∈ rs.foldl addRow acc, dayCanon p.2.checkins := by
    intro rs
    induction rs with
    | nil => intro acc hacc; exact hacc
    | cons r rest ih =>
      intro acc hacc
      rw [List.foldl_cons]
      apply ih
      intro p hp
      unfold addRow at hp
      by_cases hs : (alGet acc r.username).isSome = true
      · rw [if_pos hs] at hp
        rcases mem_alUpdate hp with hp' | ⟨v, hv, hpv⟩
        · exact hacc p hp'
        · have hv' := dayCanon_pushDay r.date r.activity (hacc (r.username, v) hv)
          rw [hpv]
          exact hv'
      · rw [if_neg hs] at hp
        exact hacc p hp
  apply main
  intro p hp
  obtain ⟨u, _, rfl⟩ := List.mem_map.mp hp
  exact dayCanon_nil

/-! ### Rebuilding a canonical snapshot from its own rows -/

theorem foldPush_append (cs : List (String × List String)) (rows₁ rows₂ : List CheckinRow) :
    foldPush cs (rows₁ ++ rows₂) = foldPush (foldPush cs rows₁) rows₂ := by
  unfold foldPush
  rw [List.foldl_append]

theorem foldPush_same_day (n : String) (cs : List (String × List String)) (d : String)
    (l : List String) (as : List String) (h : alGet cs d = none) :
    foldPush (cs ++ [(d, l)]) (as.map (fun a => ⟨n, d, a⟩)) = cs ++ [(d, l ++ as)] := by
  induction as generalizing l with
  | nil => simp [foldPush]
  | cons a as ih =>
    rw [List.map_cons]
    have hget : alGet (cs ++ [(d, l)]) d = some l := by
      rw [alGet_append_right _ h]; simp
    have hstep : pushDay (cs ++ [(d, l)]) d a = cs ++ [(d, l ++ [a])] := by
      unfold pushDay
      rw [if_pos (by rw [hget]; rfl), alUpdate_append_right _ _ h]
      simp
    show foldPush (pushDay (cs ++ [(d, l)]) d a) (as.map fun a => ⟨n, d, a⟩) = _
    rw [hstep, ih (l ++ [a])]
    simp [List.append_assoc]

theorem foldPush_one_day (n : String) (cs : List (String × List String)) (d : String)
    {as : List String} (h : alGet cs d = none) (hne : as ≠ []) :
    foldPush cs (as.map (fun a => ⟨n, d, a⟩)) = cs ++ [(d, as)] := by
  match as, hne with
  | a :: as, _ =>
    rw [List.map_cons]
    have hstep : pushDay cs d a = cs ++ [(d, [a])] := by
      unfold pushDay
      rw [if_neg (by rw [h]; simp)]
    show foldPush (pushDay cs d a) (as.map fun a => ⟨n, d, a⟩) = _
    rw [hstep, foldPush_same_day n cs d [a] as h]
    rfl

theorem userBlock_cons (n : String) (q : String × List String)
    (rest : List (String × List String)) :
    userBlock n (q :: rest) = (q.2.map fun a => ⟨n, q.1, a⟩) ++ userBlock n rest := by
  rw [userBlock, List.flatMap_cons]
  rfl

theorem mem_userBlock_username {n : String} {cs : List (String × List String)}
    {r : CheckinRow} (h : r ∈ userBlock n cs) : r.username = n := by
  obtain ⟨q, _, hq⟩ := List.mem_flatMap.mp h
  obtain ⟨a, _, rfl⟩ := List.mem_map.mp hq
  rfl

theorem foldPush_userBlock (n : String) (days : List (String × List String)) :
    ∀ cs : List (String × List String), dayCanon days →
      (∀ d ∈ days.map Prod.fst, alGet cs d = none) →
      foldPush cs (userBlock n days) = cs ++ days := by
  induction days with
  | nil => intro cs _ _; simp [userBlock, foldPush]
  | cons q rest ih =>
    intro cs hc hdisj
    obtain ⟨d, acts⟩ := q
    rw [userBlock_cons, foldPush_append]
    have hd : alGet cs d = none := hdisj d (by simp)
    have hacts : acts ≠ [] := hc.2 (d, acts) (List.mem_cons_self _ _)
    have hnodup := hc.1
    simp only [List.map_cons, List.nodup_cons] at hnodup
    rw [foldPush_one_day n cs d hd hacts]
    have hc' : dayCanon rest :=
      ⟨hnodup.2, fun p hp => hc.2 p (List.mem_cons_of_mem _ hp)⟩
    have hdisj' : ∀ e ∈ rest.map Prod.fst, alGet (cs ++ [(d, acts)]) e = none := by
      intro e he
      have hed : ¬ (d = e) := fun hde => hnodup.1 (by rw [hde]; exact he)
      have h1 : alGet cs e = none := hdisj e (List.mem_cons_of_mem _ he)
      rw [alGet_append_right _ h1]
      simp [hed]
    rw [ih (cs ++ [(d, acts)]) hc' hdisj']
    simp [List.append_assoc]

theorem mem_flatMap_userBlock {E : List (String × UserExport)} {r : CheckinRow}
    (h : r ∈ E.flatMap (fun p => userBlock p.1 p.2.checkins)) :
    r.username ∈ E.map Prod.fst := by
  obtain ⟨p, hp, hr⟩ := List.mem_flatMap.mp h
  rw [mem_userBlock_username hr]
  exact List.mem_map_of_mem _ hp

theorem filter_userBlock_self (n : String) (cs : List (String × List String)) :
    (userBlock n cs).filter (fun r => r.username = n) = userBlock n cs :=
  List.filter_eq_self.mpr (fun r hr => by simp [mem_userBlock_username hr])

theorem filter_userBlock_ne {n m : String} (h : ¬ (n = m)) (cs : List (String × List String)) :
    (userBlock n cs).filter (fun r => r.username = m) = [] :=
  List.filter_eq_nil_iff.mpr (fun r hr => by simp [mem_userBlock_username hr, h])

theorem filter_flatMap_userBlock (E : List (String × UserExport))
    (hnd : (E.map Prod.fst).Nodup) :
    ∀ p ∈ E, (E.flatMap (fun q => userBlock q.1 q.2.checkins)).filter
        (fun r => r.username = p.1) = userBlock p.1 p.2.checkins := by
  induction E with
  | nil => intro p hp; simp at hp
  | cons e rest ih =>
    intro p hp
    rw [List.flatMap_cons, List.filter_append]
    simp only [List.map_cons, List.nodup_cons] at hnd
    rcases List.mem_cons.mp hp with rfl | hp'
    · rw [filter_userBlock_self]
      have hrest : (rest.flatMap (fun q => userBlock q.1 q.2.checkins)).filter
          (fun r => r.username = p.1) = [] := by
        rw [List.filter_eq_nil_iff]
        intro r hr
        have hmem := mem_flatMap_userBlock hr
        simp only [decide_eq_true_eq]
        intro he
        rw [he] at hmem
        exact hnd.1 hmem
      rw [hrest, List.append_nil]
    · have hne : ¬ (e.1 = p.1) := by
        intro he
        apply hnd.1
        rw [he]
        exact List.mem_map_of_mem _ hp'
      rw [filter_userBlock_ne hne, List.nil_append]
      exact ih hnd.2 p hp'

theorem keys_toSnapshot (E : List (String × UserExport)) :
    (toSnapshot E).map Prod.fst = E.map Prod.fst := by
  rw [toSnapshot, List.map_map]
  rfl

theorem usersOfSnap_toSnapshot (E : List (String × UserExport)) :
    usersOfSnap (toSnapshot E) = E.map (fun p => ⟨p.1, p.2.password⟩) := by
  rw [usersOfSnap, toSnapshot, List.map_map]
  rfl

theorem rowsOfSnap_toSnapshot (E : List (String × UserExport)) :
    rowsOfSnap (toSnapshot E) = E.flatMap (fun p => userBlock p.1 p.2.checkins) := by
  rw [rowsOfSnap, toSnapshot, List.flatMap_map]
  congr 1
  funext p
  rw [userBlock, List.flatMap_map]
  rfl

theorem export_storeOfSnapshot (E : List (String × UserExport))
    (hnd : (E.map Prod.fst).Nodup)
    (hcanon : ∀ p ∈ E, dayCanon p.2.checkins) :
    exportHandler (storeOfSnapshot (toSnapshot E)) = E := by
  show buildSnapshot (usersOfSnap (toSnapshot E)) (rowsOfSnap (toSnapshot E)) = E
  rw [usersOfSnap_toSnapshot, rowsOfSnap_toSnapshot]
  have hkeys : ((E.map (fun p => (⟨p.1, p.2.password⟩ : UserRow))).map (fun u => u.username))
      = E.map Prod.fst := by
    rw [List.map_map]
    rfl
  rw [buildSnapshot_eq_map _ _ (by rw [hkeys]; exact hnd), List.map_map]
  have hpt : ∀ p ∈ E,
      ((fun u : UserRow =>
          (u.username,
            (⟨u.password,
              foldPush []
                ((E.flatMap (fun q => userBlock q.1 q.2.checkins)).filter
                  (fun r => r.username = u.username))⟩ : UserExport))) ∘
        (fun p : String × UserExport => (⟨p.1, p.2.password⟩ : UserRow))) p = id p := by
    intro p hp
    show (p.1,
        (⟨p.2.password,
          foldPush []
            ((E.flatMap (fun q => userBlock q.1 q.2.checkins)).filter
              (fun r => r.username = p.1))⟩ : UserExport)) = p
    rw [filter_flatMap_userBlock E hnd p hp,
      foldPush_userBlock p.1 p.2.checkins [] (hcanon p hp) (fun d _ => rfl),
      List.nil_append]
  rw [List.map_congr_left hpt, List.map_id]

end Checkmate

namespace Checkmate

/-! ### userExists and orphan lemmas -/

theorem userExists_iff (st : Store) (n : String) :
    userExists st n = true ↔ n ∈ st.users.map (fun u => u.username) := by
  rw [userExists, List.any_eq_true]
  constructor
  · rintro ⟨u, hu, he⟩
    simp only [decide_eq_true_eq] at he
    rw [← he]
    exact List.mem_map_of_mem _ hu
  · intro h
    obtain ⟨u, hu, he⟩ := List.mem_map.mp h
    exact ⟨u, hu, by simp [he]⟩

theorem noOrphans_mid {st : Store} (u : String) (h : noOrphans st = true) :
    noOrphans ⟨st.users, st.checkins.filter (fun r => !(r.username = u))⟩ = true := by
  rw [noOrphans, List.all_eq_true] at h ⊢
  intro r hr
  simp only [List.mem_filter] at hr
  exact h r hr.1

theorem noOrphans_deletedState {st : Store} (u : String) (h : noOrphans st = true) :
    noOrphans (deletedState st u) = true := by
  rw [noOrphans, List.all_eq_true] at h ⊢
  intro r hr
  simp only [deletedState, List.mem_filter, Bool.not_eq_true', decide_eq_false_iff_not] at hr
  have h1 := h r hr.1
  obtain ⟨u₀, hu₀, he⟩ := List.mem_map.mp ((userExists_iff st r.username).mp h1)
  apply (userExists_iff _ _).mpr
  apply List.mem_map.mpr
  refine ⟨u₀, ?_, he⟩
  apply List.mem_filter.mpr
  refine ⟨hu₀, ?_⟩
  simp [he, hr.2]

/-! ### Evaluating the delete-user handler per failure point -/

theorem filter_username_idem (u : String) (l : List CheckinRow) :
    (l.filter (fun r => !(r.username = u))).filter (fun r => !(r.username = u))
      = l.filter (fun r => !(r.username = u)) := by
  rw [List.filter_filter]
  congr 1
  funext r
  rw [Bool.and_self]

theorem deleteUserH_fail0 (st : Store) (u : String) :
    deleteUserH st u (some 0) = (false, st) := rfl

theorem deleteUserH_fail1 (st : Store) (u : String) :
    deleteUserH st u (some 1)
      = (false, ⟨st.users, st.checkins.filter (fun r => !(r.username = u))⟩) := rfl

theorem deleteUserH_mid_eq_deleted (st : Store) (u : String) :
    (⟨st.users.filter (fun r => !(r.username = u)),
      if userExists ⟨st.users, st.checkins.filter (fun r => !(r.username = u))⟩ u
      then (st.checkins.filter (fun r => !(r.username = u))).filter
            (fun r => !(r.username = u))
      else st.checkins.filter (fun r => !(r.username = u))⟩ : Store)
      = deletedState st u := by
  rw [deletedState]
  congr 1
  split
  · exact filter_username_idem u st.checkins
  · rfl

theorem deleteUserH_none (st : Store) (u : String) :
    deleteUserH st u none = (true, deletedState st u) := by
  rw [show deleteUserH st u none
      = (true,
          (⟨st.users.filter (fun r => !(r.username = u)),
            if userExists ⟨st.users, st.checkins.filter (fun r => !(r.username = u))⟩ u
            then (st.checkins.filter (fun r => !(r.username = u))).filter
                  (fun r => !(r.username = u))
            else st.checkins.filter (fun r => !(r.username = u))⟩ : Store)) from rfl,
    deleteUserH_mid_eq_deleted]

theorem deleteUserH_late (st : Store) (u : String) (n : Nat) :
    deleteUserH st u (some (n + 2)) = (true, deletedState st u) := by
  rw [show deleteUserH st u (some (n + 2))
      = (true,
          (⟨st.users.filter (fun r => !(r.username = u)),
            if userExists ⟨st.users, st.checkins.filter (fun r => !(r.username = u))⟩ u
            then (st.checkins.filter (fun r => !(r.username = u))).filter
                  (fun r => !(r.username = u))
            else st.checkins.filter (fun r => !(r.username = u))⟩ : Store)) from rfl,
    deleteUserH_mid_eq_deleted]

end Checkmate

namespace Checkmate

/-! ### Claim theorems: server-side store -/

/-- C1 (counterexample): deleting an account is NOT all-or-nothing. The claim
states that under every failure path the delete-user operation either leaves
the store unchanged or removes both the account and its check-ins. It fails on
a store with one account and one check-in row when the second statement (the
user-row delete) fails: the check-in rows are already committed as deleted
while the account remains. -/
theorem deleteUser_not_allOrNothing :
    ¬ (∀ (st : Store) (u : String) (failAt : Option Nat), noOrphans st = true →
        (deleteUserH st u failAt).2 = st ∨
        (deleteUserH st u failAt).2 = deletedState st u) := by
  intro h
  exact absurd (h exStore "alice" (some 1) (by decide)) (by decide)

/-- C1 (amended): `DELETE /api/user/:username` runs its two deletions as bare
statements outside any transaction. It never creates orphaned check-in rows —
the check-ins are deleted before the account — and on success it removes both
the account and all its check-ins; but it is not all-or-nothing: when the
account deletion fails after the check-in deletion has committed, the store is
left with the check-ins gone and the account still present. -/
theorem deleteUser_amended (st : Store) (u : String) (failAt : Option Nat) :
    (noOrphans st = true → noOrphans (deleteUserH st u failAt).2 = true)
    ∧ ((deleteUserH st u failAt).1 = true →
        (deleteUserH st u failAt).2 = deletedState st u)
    ∧ ((deleteUserH st u failAt).1 = false →
        (deleteUserH st u failAt).2 = st ∨
        (deleteUserH st u failAt).2
          = ⟨st.users, st.checkins.filter (fun r => !(r.username = u))⟩) := by
  rcases failAt with _ | n
  · rw [deleteUserH_none]
    exact ⟨fun h => noOrphans_deletedState u h, fun _ => rfl, fun h => by simp at h⟩
  · rcases n with _ | n
    · rw [deleteUserH_fail0]
      exact ⟨fun h => h, fun h => by simp at h, fun _ => Or.inl rfl⟩
    · rcases n with _ | n
      · rw [deleteUserH_fail1]
        exact ⟨fun h => noOrphans_mid u h, fun h => by simp at h, fun _ => Or.inr rfl⟩
      · rw [deleteUserH_late]
        exact ⟨fun h => noOrphans_deletedState u h, fun _ => rfl, fun h => by simp at h⟩

/-- Witness for the amended C1 theorem at concrete inputs. -/
theorem deleteUser_amended_witness :
    noOrphans (deleteUserH exStore "alice" (some 1)).2 = true
    ∧ (deleteUserH exStore "alice" none).2 = deletedState exStore "alice" :=
  ⟨(deleteUser_amended exStore "alice" (some 1)).1 (by decide),
   (deleteUser_amended exStore "alice" none).2.1 (by decide)⟩

/-- C2: `POST /api/import` is atomic. Whatever the failure point (an injected
transient failure or a constraint violation), a failed import leaves the store
exactly as it was; a successful import leaves exactly the snapshot's accounts
and check-ins (everything previously stored having been deleted first); and a
fully applied import of the empty snapshot yields the empty store, whose
export is the empty object. -/
theorem importSnapshot_atomic (snap : Snapshot) (failAt : Option Nat) (st : Store) :
    ((runImportH snap failAt st).1 = false → (runImportH snap failAt st).2 = st)
    ∧ ((runImportH snap failAt st).1 = true →
        (runImportH snap failAt st).2 = storeOfSnapshot snap)
    ∧ storeOfSnapshot [] = (⟨[], []⟩ : Store)
    ∧ exportHandler ⟨[], []⟩ = [] := by
  refine ⟨?_, ?_, rfl, rfl⟩
  · intro h
    exact runImportH_eq_false (by rw [← h])
  · intro h
    exact runImportH_eq_true (by rw [← h])

/-- Witness for C2 at concrete inputs: a completed import replaces the store,
a failed one leaves it untouched. -/
theorem importSnapshot_atomic_witness :
    (runImportH exSnap none exStore).2 = storeOfSnapshot exSnap
    ∧ (runImportH exSnap (some 0) exStore).2 = exStore :=
  ⟨(importSnapshot_atomic exSnap none exStore).2.1 (by decide),
   (importSnapshot_atomic exSnap (some 0) exStore).1 (by decide)⟩

/-- C3: adding a check-in whose `(username, date, activity)` triple already
has a row fails with Conflict, and the store returned by the handler is the
store it was given — nothing added, removed or modified. The non-emptiness
hypotheses come from the data model (username non-empty, date and activity
from fixed formats); an empty field is rejected earlier as invalid input. -/
theorem addCheckin_duplicate_conflict (st : Store) (u d a : String)
    (hu : ¬ (u = "")) (hd : ¬ (d = "")) (ha : ¬ (a = ""))
    (hex : checkinExists st u d a = true) :
    addCheckinH st u d a = (Resp.conflict, st) := by
  rw [addCheckinH, if_neg (by simp [hu, hd, ha]), if_pos hex]

/-- Witness for C3: a duplicate of the stored row is rejected with Conflict,
state unchanged. -/
theorem addCheckin_duplicate_conflict_witness :
    addCheckinH exStore "alice" "2024-03-01" "paper" = (Resp.conflict, exStore) :=
  addCheckin_duplicate_conflict exStore "alice" "2024-03-01" "paper"
    (by decide) (by decide) (by decide) (by decide)

/-- C8: after a successful `POST /api/checkin` for `(u, d, a)`, the per-user
mapping assembled by `GET /api/users` has an entry for `u` whose check-ins
contain the key `d`, and the activity array at `d` contains `a`. -/
theorem addCheckin_visible (st st' : Store) (u d a : String) (hwf : StoreWF st)
    (h : addCheckinH st u d a = (Resp.ok, st')) :
    ∃ ue, alGet (usersHandler st') u = some ue ∧
      ∃ l, alGet ue.checkins d = some l ∧ a ∈ l := by
  rw [addCheckinH] at h
  split at h
  · simp at h
  · split at h
    · simp at h
    · split at h
      · rename_i hex
        injection h with h1 h2
        subst h2
        show ∃ ue, alGet (buildSnapshot st.users (st.checkins ++ [⟨u, d, a⟩])) u = some ue ∧
          ∃ l, alGet ue.checkins d = some l ∧ a ∈ l
        obtain ⟨u₀, hu₀, hname⟩ : ∃ u₀ ∈ st.users, u₀.username = u := by
          obtain ⟨u₀, hu₀, he⟩ := List.mem_map.mp ((userExists_iff st u).mp hex)
          exact ⟨u₀, hu₀, he⟩
        rw [buildSnapshot_eq_map _ _ hwf, ← hname]
        refine ⟨_, alGet_map_of_mem (fun u₁ : UserRow => u₁.username) _ hwf hu₀, ?_⟩
        show ∃ l, alGet
            (foldPush []
              ((st.checkins ++ [(⟨u₀.username, d, a⟩ : CheckinRow)]).filter
                (fun r => r.username = u₀.username))) d = some l ∧ a ∈ l
        have hfilter :
            (st.checkins ++ [(⟨u₀.username, d, a⟩ : CheckinRow)]).filter
                (fun r => r.username = u₀.username)
              = st.checkins.filter (fun r => r.username = u₀.username)
                ++ [(⟨u₀.username, d, a⟩ : CheckinRow)] := by
          rw [List.filter_append]
          congr 1
          rw [List.filter_cons_of_pos (by simp), List.filter_nil]
        rw [hfilter, foldPush_concat]
        exact alGet_pushDay_self _ d a
      · simp at h

/-- Witness for C8: adding alice's check-in to a store with only her account
makes it visible in the users read path. -/
theorem addCheckin_visible_witness :
    StoreWF exStore0 ∧
    ∃ ue, alGet (usersHandler exStore) "alice" = some ue ∧
      ∃ l, alGet ue.checkins "2024-03-01" = some l ∧ "paper" ∈ l :=
  ⟨by decide,
   addCheckin_visible exStore0 exStore "alice" "2024-03-01" "paper" (by decide) (by decide)⟩

/-- C9: importing the store's own export and exporting again yields a snapshot
structurally equal to the first export (the rows may be regrouped in the
tables, but the assembled object is identical). -/
theorem export_import_roundtrip (st st' : Store) (hwf : StoreWF st)
    (h : runImportH (toSnapshot (exportHandler st)) none st = (true, st')) :
    exportHandler st' = exportHandler st := by
  rw [runImportH_eq_true h]
  have hnd : ((exportHandler st).map Prod.fst).Nodup := by
    show ((buildSnapshot st.users st.checkins).map Prod.fst).Nodup
    rw [keys_buildSnapshot]
    exact hwf
  exact export_storeOfSnapshot (exportHandler st) hnd (buildSnapshot_canon _ _)

/-- Witness for C9 at a store whose check-in rows are interleaved between two
users, so the re-import actually regroups the rows. -/
theorem export_import_roundtrip_witness :
    StoreWF exStoreC ∧
    exportHandler (runImportH (toSnapshot (exportHandler exStoreC)) none exStoreC).2
      = exportHandler exStoreC :=
  ⟨by decide,
   export_import_roundtrip exStoreC _ (by decide)
     (by rw [← (by decide :
         (runImportH (toSnapshot (exportHandler exStoreC)) none exStoreC).1 = true)])⟩

/-- C10: the objects assembled by `GET /api/users` and `GET /api/export` have
exactly the account usernames as keys, and a check-in row whose username has
no account row contributes nothing to either object — it is silently omitted. -/
theorem snapshot_omits_orphans (st : Store) (hwf : StoreWF st) :
    ((usersHandler st).map Prod.fst = st.users.map (fun u => u.username)
      ∧ (exportHandler st).map Prod.fst = st.users.map (fun u => u.username))
    ∧ ∀ r : CheckinRow, userExists st r.username = false →
        usersHandler { st with checkins := st.checkins ++ [r] } = usersHandler st
        ∧ exportHandler { st with checkins := st.checkins ++ [r] } = exportHandler st := by
  constructor
  · exact ⟨keys_buildSnapshot _ _, keys_buildSnapshot _ _⟩
  · intro r hr
    have hnot : ¬ ((alGet (buildSnapshot st.users st.checkins) r.username).isSome = true) := by
      intro hs
      rw [alGet_isSome_iff, keys_buildSnapshot, ← userExists_iff, hr] at hs
      simp at hs
    have hmain : buildSnapshot st.users (st.checkins ++ [r])
        = buildSnapshot st.users st.checkins := by
      have hsplit : buildSnapshot st.users (st.checkins ++ [r])
          = addRow (buildSnapshot st.users st.checkins) r := by
        rw [buildSnapshot, buildSnapshot, List.foldl_concat]
      rw [hsplit]
      unfold addRow
      rw [if_neg hnot]
    exact ⟨hmain, hmain⟩

/-- Witness for C10: appending a row for a username with no account leaves the
assembled users object unchanged. -/
theorem snapshot_omits_orphans_witness :
    usersHandler { exStore with checkins := exStore.checkins ++ [⟨"ghost", "2024-03-01", "quant"⟩] }
      = usersHandler exStore :=
  ((snapshot_omits_orphans exStore (by decide)).2 ⟨"ghost", "2024-03-01", "quant"⟩ (by decide)).1

end Checkmate

namespace Checkmate

/-! ### Claim theorems: browser-local store -/

instance feedOrdTrans : IsTrans (String × List String) feedOrd := by
  constructor
  intro a b c h₁ h₂
  unfold feedOrd localeLe at h₁ h₂ ⊢
  exact le_trans h₁ h₂

instance feedOrdTotal : IsTotal (String × List String) feedOrd := by
  constructor
  intro a b
  unfold feedOrd localeLe
  exact le_total _ _

theorem hasEmptyDay_eq_false_iff (users : Snapshot) :
    hasEmptyDay users = false ↔
      ∀ p ∈ users, ∀ q ∈ p.2.checkins, ¬ (q.2 = DayVal.arr []) := by
  rw [hasEmptyDay, List.any_eq_false]
  constructor
  · intro h p hp q hq hqe
    exact h p hp (List.any_eq_true.mpr ⟨q, hq, by simp [hqe]⟩)
  · intro h p hp hc
    obtain ⟨q, hq, hq2⟩ := List.any_eq_true.mp hc
    exact h p hp q hq (by simpa using hq2)

theorem toggle_new_checkins_no_empty {cs : List (String × DayVal)} (d : String)
    (cur' : List String)
    (h : ∀ q ∈ cs, ¬ (q.2 = DayVal.arr [])) :
    ∀ q ∈ (if cur' = [] then alRemove cs d else alSet cs d (DayVal.arr cur')),
      ¬ (q.2 = DayVal.arr []) := by
  intro q hq
  split at hq
  · exact h q (mem_alRemove hq)
  · rename_i hne2
    rcases mem_alSet hq with hq' | hq'
    · exact h q hq'
    · rw [hq']
      intro hqe
      exact hne2 (by injection hqe)

/-- C4 (counterexample): the claim includes export among the read paths that
normalize a legacy bare-code day value to a singleton collection. The
browser-local export emits the stored object verbatim: for a store whose one
day value is the bare code "fitness", the exported value at that day is still
the bare code, not the singleton array. -/
theorem legacy_export_not_normalized :
    ¬ (∀ (users : Snapshot) (u d a : String) (ud : UserIn),
        alGet users u = some ud → alGet ud.checkins d = some (DayVal.legacy a) →
        (alGet (exportDataLocal users) u).map (fun x => alGet x.checkins d)
          = some (some (DayVal.arr [a]))) := by
  intro h
  exact absurd
    (h legacySnap "u" "2024-03-01" "fitness"
      ⟨"p", [("2024-03-01", DayVal.legacy "fitness")]⟩ (by decide) (by decide))
    (by decide)

/-- C4 (amended): a legacy bare-code day value reads back as the singleton
containing that code through the per-user check-in read (`getTodayCheckin`)
and through the all-users-for-date feed; the browser-local export, however,
emits the stored object verbatim, so the legacy scalar is exported unchanged.
(The server-side export cannot see legacy values: the relational store keeps
one row per activity and the export assembly always builds arrays.) -/
theorem legacy_normalized_amended :
    (∀ (users : Snapshot) (u d a : String) (ud : UserIn),
      alGet users u = some ud → alGet ud.checkins d = some (DayVal.legacy a) →
      getTodayCheckin users u d = [a]
      ∧ (¬ (a = "") → (u, [a]) ∈ todayFeed users d))
    ∧ ∀ users : Snapshot, exportDataLocal users = users := by
  constructor
  · intro users u d a ud hu hd
    constructor
    · simp only [getTodayCheckin, hu, hd]
    · intro ha
      apply (List.perm_insertionSort feedOrd _).mem_iff.mpr
      apply List.mem_filterMap.mpr
      refine ⟨(u, ud), alGet_mem hu, ?_⟩
      show ((alGet ud.checkins d).bind feedEntry).map (fun acts => (u, acts))
        = some (u, [a])
      rw [hd]
      show (feedEntry (DayVal.legacy a)).map (fun acts => (u, acts)) = some (u, [a])
      simp [feedEntry, ha]
  · intro users
    rfl

/-- Witness for the amended C4 theorem on a concrete legacy store. -/
theorem legacy_normalized_amended_witness :
    getTodayCheckin legacySnap "u" "2024-03-01" = ["fitness"]
    ∧ ("u", ["fitness"]) ∈ todayFeed legacySnap "2024-03-01" := by
  have h := (legacy_normalized_amended.1 legacySnap "u" "2024-03-01" "fitness"
    ⟨"p", [("2024-03-01", DayVal.legacy "fitness")]⟩ (by decide) (by decide))
  exact ⟨h.1, h.2 (by decide)⟩

/-- C5 (counterexample): the browser-local import persists the snapshot
verbatim — after importing a snapshot with a legacy scalar day entry, the
stored value is still the bare code, not a collection. -/
theorem import_local_keeps_scalar :
    ¬ (∀ (snap : Snapshot) (u : String) (ud : UserIn) (d : String) (v : DayVal),
        alGet (importDataLocal snap) u = some ud → alGet ud.checkins d = some v →
        ∃ l, v = DayVal.arr l) := by
  intro h
  obtain ⟨l, hl⟩ := h legacySnap "u" ⟨"p", [("2024-03-01", DayVal.legacy "fitness")]⟩
    "2024-03-01" (DayVal.legacy "fitness") (by decide) (by decide)
  simp at hl

/-- C5 (amended): the server import expands legacy scalar day entries to
singleton collections before inserting rows — a snapshot and its canonical
form produce the same fully-imported store; the browser-local import instead
stores the snapshot verbatim, scalars included. -/
theorem import_normalizes_amended :
    (∀ snap : Snapshot, storeOfSnapshot snap = storeOfSnapshot (canonSnap snap))
    ∧ ∀ snap : Snapshot, importDataLocal snap = snap := by
  constructor
  · intro snap
    rw [storeOfSnapshot, storeOfSnapshot]
    have husers : usersOfSnap (canonSnap snap) = usersOfSnap snap := by
      rw [usersOfSnap, usersOfSnap, canonSnap, List.map_map]
      rfl
    have hrows : rowsOfSnap (canonSnap snap) = rowsOfSnap snap := by
      rw [rowsOfSnap, rowsOfSnap, canonSnap, List.flatMap_map]
      apply flatMap_congr_helper
      intro p _
      show (p.2.checkins.map (fun q => (q.1, DayVal.arr (normDay q.2)))).flatMap
          (fun q => (normDay q.2).map (fun a => (⟨p.1, q.1, a⟩ : CheckinRow)))
        = p.2.checkins.flatMap (fun q => (normDay q.2).map (fun a => ⟨p.1, q.1, a⟩))
      rw [List.flatMap_map]
      apply flatMap_congr_helper
      intro q _
      rfl
    rw [husers, hrows]
  · intro snap
    rfl

/-- Witness for the amended C5 theorem: importing a snapshot with a legacy
scalar entry produces the same store as importing its canonicalized form. -/
theorem import_normalizes_amended_witness :
    storeOfSnapshot exSnap = storeOfSnapshot (canonSnap exSnap)
    ∧ importDataLocal legacySnap = legacySnap :=
  ⟨import_normalizes_amended.1 exSnap, import_normalizes_amended.2 legacySnap⟩

/-- C6 (counterexample): the claim says the feed is sorted by username in
ascending case-sensitive code-point order. The code sorts with
`localeCompare`, which orders "a" before "B", while code-point order puts "B"
(0x42) before "a" (0x61): with users "B" and "a" both checked in, the feed is
["a", "B"], which is not code-point sorted. -/
theorem feed_not_codepoint_sorted :
    ¬ (∀ (users : Snapshot) (d : String),
        List.Sorted cpLe ((todayFeed users d).map Prod.fst)) := by
  intro h
  exact absurd (h feedUsers "2024-03-01") (by decide)

/-- C6 (amended): the feed lists exactly the users whose stored value for the
date passes the feed's inclusion test (at least one activity, with the JS
falsy-value subtleties), sorted ascending by the `localeCompare` collation
(case-insensitive primary comparison, lowercase before uppercase on ties),
not by code points. -/
theorem feed_sorted_locale (users : Snapshot) (today : String) :
    List.Sorted feedOrd (todayFeed users today)
    ∧ ∀ n : String, (∃ acts, (n, acts) ∈ todayFeed users today) ↔
        ∃ p ∈ users, p.1 = n ∧
          ∃ v, alGet p.2.checkins today = some v ∧ (feedEntry v).isSome = true := by
  constructor
  · exact List.sorted_insertionSort feedOrd _
  · intro n
    constructor
    · rintro ⟨acts, hmem⟩
      have hmem' := (List.perm_insertionSort feedOrd _).mem_iff.mp hmem
      obtain ⟨p, hp, hf⟩ := List.mem_filterMap.mp hmem'
      rw [Option.map_eq_some'] at hf
      obtain ⟨as, hbind, heq⟩ := hf
      obtain ⟨v, hv, hfe⟩ := Option.bind_eq_some.mp hbind
      rw [Prod.mk.injEq] at heq
      exact ⟨p, hp, heq.1, v, hv, by rw [hfe]; rfl⟩
    · rintro ⟨p, hp, hn, v, hv, hfe⟩
      obtain ⟨as, has⟩ := Option.isSome_iff_exists.mp hfe
      refine ⟨as, ?_⟩
      apply (List.perm_insertionSort feedOrd _).mem_iff.mpr
      apply List.mem_filterMap.mpr
      refine ⟨p, hp, ?_⟩
      show ((alGet p.2.checkins today).bind feedEntry).map (fun acts => (p.1, acts))
        = some (n, as)
      rw [hv]
      show (feedEntry v).map (fun acts => (p.1, acts)) = some (n, as)
      rw [has, hn]
      rfl

/-- C7 (counterexample): the browser-local import persists the snapshot
verbatim, so importing a snapshot containing a day entry with an empty
activity array leaves an empty-set entry in the store, violating the claimed
store-wide invariant. -/
theorem import_local_empty_entry :
    ¬ (∀ snap : Snapshot, hasEmptyDay (importDataLocal snap) = false) := by
  intro h
  exact absurd (h emptyDaySnap) (by decide)

/-- C7 (amended): `toggleCheckin` never creates or keeps an empty-set day
entry — removing the only activity of a day (stored as a one-element array or
as the legacy bare code) deletes the day key entirely — but the browser-local
importData can persist an imported empty entry, since it stores its snapshot
verbatim. -/
theorem toggle_no_empty_days (users : Snapshot) (u d a : String) :
    (hasEmptyDay users = false → hasEmptyDay (toggleCheckin users u d a) = false)
    ∧ ∀ ud : UserIn, alGet users u = some ud →
        (ud.checkins.map Prod.fst).Nodup →
        (alGet ud.checkins d = some (DayVal.arr [a])
          ∨ alGet ud.checkins d = some (DayVal.legacy a)) →
        ∃ ud', alGet (toggleCheckin users u d a) u = some ud'
          ∧ alGet ud'.checkins d = none := by
  constructor
  · intro h
    rw [hasEmptyDay_eq_false_iff] at h ⊢
    cases hu : alGet users u with
    | none =>
      simp only [toggleCheckin, hu]
      exact h
    | some ud =>
      simp only [toggleCheckin, hu]
      intro p hp q hq
      rcases mem_alSet hp with hp' | hp'
      · exact h p hp' q hq
      · subst hp'
        exact toggle_new_checkins_no_empty d _ (h (u, ud) (alGet_mem hu)) q hq
  · intro ud hu hnd hday
    rcases hday with hd | hd
    · have htog : toggleCheckin users u d a
          = alSet users u { ud with checkins := alRemove ud.checkins d } := by
        simp only [toggleCheckin, hu, hd]
        simp
      rw [htog]
      exact ⟨_, alGet_alSet_self _ _ _, alGet_alRemove_self hnd⟩
    · have htog : toggleCheckin users u d a
          = alSet users u { ud with checkins := alRemove ud.checkins d } := by
        simp only [toggleCheckin, hu, hd]
        simp
      rw [htog]
      exact ⟨_, alGet_alSet_self _ _ _, alGet_alRemove_self hnd⟩

/-- Witness for the amended C7 theorem: toggling away the only activity of the
day removes the day key; the no-empty-entry invariant is preserved. -/
theorem toggle_no_empty_days_witness :
    hasEmptyDay (toggleCheckin oneDaySnap "u" "2024-03-01" "paper") = false
    ∧ ∃ ud', alGet (toggleCheckin oneDaySnap "u" "2024-03-01" "paper") "u" = some ud'
        ∧ alGet ud'.checkins "2024-03-01" = none :=
  ⟨(toggle_no_empty_days oneDaySnap "u" "2024-03-01" "paper").1 (by decide),
   (toggle_no_empty_days oneDaySnap "u" "2024-03-01" "paper").2
     ⟨"p", [("2024-03-01", DayVal.arr ["paper"])]⟩ (by decide) (by decide)
     (Or.inl (by decide))⟩

end Checkmate

namespace Checkmate

/-- Witness for the amended C6 theorem: with users "B" and "a" both checked in
on the date, the feed is sorted under the locale ordering and lists "a". -/
theorem feed_sorted_locale_witness :
    List.Sorted feedOrd (todayFeed feedUsers "2024-03-01")
    ∧ ∃ acts, ("a", acts) ∈ todayFeed feedUsers "2024-03-01" :=
  ⟨(feed_sorted_locale feedUsers "2024-03-01").1,
   ((feed_sorted_locale feedUsers "2024-03-01").2 "a").mpr
     ⟨("a", ⟨"q", [("2024-03-01", DayVal.arr ["fitness"])]⟩), by decide, rfl,
      DayVal.arr ["fitness"], by decide, by decide⟩⟩

end Checkmate
